import Mathlib

/-!
# Verification of the newseum feed aggregator (src/newseum.go)

Shallow embedding of the core pipeline of the Go program `newseum.go`:
the concurrent fetch-aggregate-sort pipeline, the item normalizer, the
search filter, the nitter link rewriter, the action resolver (`openURL`
classification), the relative date formatter and the display-cleaning
transform.

Go strings are modelled as `List Char` (a Go string is a byte sequence,
ranged over here at rune granularity). `strings.ToLower` is modelled by
`Char.toLower` on each rune, which is faithful on the ASCII range the
claims exercise. `time.Time` is modelled as seconds since the Unix epoch
(`Int`), with the Go zero time being `goZeroTime` (Jan 1, year 1 UTC).
-/

/-- Go strings, at rune granularity. -/
abbrev GoStr := List Char

/-- Coerce a Lean string literal to the Go string model. -/
def gs (s : String) : GoStr := s.data

/-- `strings.ToLower` (faithful on ASCII, which is all the claims use). -/
def goToLower (s : GoStr) : GoStr := s.map Char.toLower

/-- `strings.HasPrefix(s, pre)`. -/
def goHasPre : GoStr → GoStr → Bool
  | _, [] => true
  | [], _ :: _ => false
  | c :: s, p :: ps => decide (c = p) && goHasPre s ps

/-- `strings.Contains(s, sub)`: `sub` occurs as a contiguous substring of
`s`, checked by scanning every start position. -/
def goContains (s sub : GoStr) : Bool :=
  match s with
  | [] => goHasPre [] sub
  | c :: rest => goHasPre (c :: rest) sub || goContains rest sub

/-- `FeedSource` from newseum.go (lines 22-25). -/
structure FeedSource where
  name : GoStr
  url  : GoStr
deriving DecidableEq, Repr

/-- `FeedItem` from newseum.go (lines 27-35). Dates are Unix seconds. -/
structure FeedItem where
  title       : GoStr
  date        : Int
  feedTitle   : GoStr
  link        : GoStr
  audioURL    : GoStr
  description : GoStr
  searchText  : GoStr
deriving DecidableEq, Repr

/-- The Go zero `time.Time` (January 1, year 1, 00:00:00 UTC) in Unix seconds;
`date.IsZero()` in `formatDate` is `date = goZeroTime` in this model. -/
def goZeroTime : Int := -62135596800

/-! ## Search filter (newseum.go lines 130-146, `searchInput.SetChangedFunc`)

The Go callback lowercases the query, returns `items` itself on the empty
query, and otherwise keeps, in order, exactly the items whose precomputed
`SearchText` contains the lowercased query. -/

/-- The body of `searchInput.SetChangedFunc`: computes the new
`filteredItems` from the full `items` collection and the raw query text. -/
def filterItems (text : GoStr) (items : List FeedItem) : List FeedItem :=
  let searchQuery := goToLower text
  if searchQuery = [] then
    items
  else
    items.filter (fun item => goContains item.searchText searchQuery)

theorem goHasPre_iff (s pre : GoStr) : goHasPre s pre = true ↔ pre <+: s := by
  induction s generalizing pre with
  | nil =>
    cases pre with
    | nil => simp [goHasPre]
    | cons p ps => simp [goHasPre]
  | cons c rest ih =>
    cases pre with
    | nil => simp [goHasPre]
    | cons p ps =>
      simp only [goHasPre, Bool.and_eq_true, decide_eq_true_eq, ih,
        List.cons_prefix_cons]
      exact and_congr_left fun _ => eq_comm

theorem goContains_iff (s sub : GoStr) : goContains s sub = true ↔ sub <:+: s := by
  induction s with
  | nil =>
    simp [goContains, goHasPre_iff]
  | cons c rest ih =>
    simp [goContains, goHasPre_iff, ih, List.infix_cons_iff]

theorem filterItems_nonempty (text : GoStr) (items : List FeedItem)
    (h : goToLower text ≠ []) :
    filterItems text items
      = items.filter (fun item => goContains item.searchText (goToLower text)) := by
  simp [filterItems, h]

/-- **C1**: for every query string Q and item collection C, the search filter
returns a subsequence of C (relative order preserved, witnessed by
`List.Sublist`) containing exactly those items whose precomputed
`search_text` contains `lowercase(Q)`; for the empty query the filter
returns C itself. -/
theorem C1_filter_correct (q : GoStr) (C : List FeedItem) :
    (filterItems q C).Sublist C ∧
    (∀ x : FeedItem, x ∈ filterItems q C ↔
        x ∈ C ∧ (goToLower q) <:+: x.searchText) ∧
    filterItems [] C = C := by
  refine ⟨?_, ?_, by simp [filterItems, goToLower]⟩
  · by_cases h : goToLower q = []
    · simp [filterItems, h]
    · rw [filterItems_nonempty q C h]
      exact List.filter_sublist C
  · intro x
    by_cases h : goToLower q = []
    · simp [filterItems, h, List.nil_infix]
    · rw [filterItems_nonempty q C h]
      simp [List.mem_filter, goContains_iff]

/-! ## Ordering (newseum.go lines 446-449)

`sort.Slice(items, func(i, j int) bool { return items[i].Date.After(items[j].Date) })`.
`sort.Slice` is an unspecified (unstable) comparison sort; we embed it as an
insertion sort driven by the same comparator, which realizes one admissible
output of `sort.Slice`. -/

/-- The comparator closure of line 448: `items[i].Date.After(items[j].Date)`. -/
def dateAfter (a b : FeedItem) : Bool := decide (b.date < a.date)

/-- Insert one item into an already-sorted (descending) list using the Go
comparator. -/
def insertByDate (x : FeedItem) : List FeedItem → List FeedItem
  | [] => [x]
  | y :: ys => if dateAfter x y then x :: y :: ys else y :: insertByDate x ys

/-- The `sort.Slice` call of lines 447-449. -/
def sortItems : List FeedItem → List FeedItem
  | [] => []
  | x :: xs => insertByDate x (sortItems xs)

/-! ## Raw parsed feeds (the gofeed collaborator's output shape) -/

/-- A feed entry enclosure (`gofeed` exposes `Type` and `URL`). -/
structure Enclosure where
  typ : GoStr
  url : GoStr
deriving DecidableEq

/-- A raw parsed feed entry: the `gofeed.Item` fields `fetchFeeds` reads.
`publishedParsed` is the entry's parsed publish time (`nil` when absent). -/
structure RawItem where
  title : GoStr
  link : GoStr
  publishedParsed : Option Int
  enclosures : List Enclosure
  description : GoStr
  content : GoStr
deriving DecidableEq

/-- A raw parsed feed: the `gofeed.Feed` fields `fetchFeeds` reads. -/
structure RawFeed where
  title : GoStr
  items : List RawItem
deriving DecidableEq

/-! ## Link rewriting (newseum.go lines 454-466, `fixNitterLink`) -/

/-- Strip `pre` from the front of `s`, or fail. -/
def dropPre : GoStr → GoStr → Option GoStr
  | s, [] => some s
  | [], _ :: _ => none
  | c :: s, p :: ps => if c = p then dropPre s ps else none

/-- Try to match the Go regexp `https?://[^/]+/(.*)` at the start of `s`,
returning the capture group. In Go regexp, `[^/]` matches any rune except
`/` (including newline), while `.` matches any rune except newline, so the
capture runs from the first `/` after the host up to the end of the string
or the first newline. The optional `s` needs no backtracking because
`s ≠ :`. -/
def matchLinkAt (s : GoStr) : Option GoStr :=
  (dropPre s (gs "http")).bind fun s1 =>
    let s2 := (dropPre s1 (gs "s")).getD s1
    (dropPre s2 (gs "://")).bind fun s3 =>
      match s3.takeWhile (fun c => c ≠ '/'), s3.dropWhile (fun c => c ≠ '/') with
      | _ :: _, _ :: rest => some (rest.takeWhile (fun c => c ≠ '\n'))
      | _, _ => none

/-- `re.FindStringSubmatch(itemLink)`: leftmost match of the pattern,
scanning start positions left to right. -/
def findLinkMatch : GoStr → Option GoStr
  | [] => none
  | c :: rest =>
    match matchLinkAt (c :: rest) with
    | some cap => some cap
    | none => findLinkMatch rest

/-- `fixNitterLink` (lines 454-466): for feeds from a nitter instance,
rewrite item links onto `x.com`, stripping any `#` fragment; otherwise pass
the link through unchanged. -/
def fixNitterLink (feedURL itemLink : GoStr) : GoStr :=
  if goContains feedURL (gs "nitter.") then
    match findLinkMatch itemLink with
    | some path => gs "https://x.com/" ++ path.takeWhile (fun c => c ≠ '#')
    | none => itemLink
  else itemLink

/-! ## Item normalization (the worker-loop body, newseum.go lines 367-410) -/

/-- Lines 367-370: the source's configured name, falling back to the
feed's self-declared title when the name is empty. -/
def feedTitleOf (source : FeedSource) (feed : RawFeed) : GoStr :=
  if source.name = [] then feed.title else source.name

/-- Lines 379-385: the URL of the first enclosure whose declared type has
the prefix `audio/`; empty if none. -/
def findAudioURL : List Enclosure → GoStr
  | [] => []
  | e :: es => if goHasPre e.typ (gs "audio/") then e.url else findAudioURL es

/-- Lines 387-392: the entry's description, falling back to its content. -/
def pickDescription (item : RawItem) : GoStr :=
  if item.description ≠ [] then item.description
  else if item.content ≠ [] then item.content
  else []

/-- Lines 373-409: normalize one raw entry of one source into a `FeedItem`.
`now` is `time.Now().UTC()` captured at normalization time (line 374). -/
def normalizeItem (now : Int) (source : FeedSource) (feedTitle : GoStr)
    (item : RawItem) : FeedItem :=
  let pubDate : Int := match item.publishedParsed with
    | some t => t
    | none => now
  let description := pickDescription item
  let searchText :=
    goToLower item.title ++ gs " " ++ goToLower feedTitle ++ gs " " ++
      goToLower description
  { title := item.title
    date := pubDate
    feedTitle := feedTitle
    link := fixNitterLink source.url item.link
    audioURL := findAudioURL item.enclosures
    description := description
    searchText := searchText }

/-- Lines 367-410: normalize every entry of one successfully parsed feed. -/
def normalizeFeed (now : Int) (source : FeedSource) (feed : RawFeed) :
    List FeedItem :=
  feed.items.map (normalizeItem now source (feedTitleOf source feed))

/-- The error message of line 363. -/
def parseErrMsg (source : FeedSource) (e : GoStr) : GoStr :=
  gs "error parsing feed " ++ source.url ++ gs ": " ++ e

/-- The worker loop of `fetchFeeds` (lines 356-418), one admissible schedule:
sources processed in list order. Each source either contributes its
normalized batch to the shared `items`, or records one error and is
skipped (`continue`, line 364); a failure never stops the remaining
sources. `fetch` models `fp.ParseURL`. -/
def processSources (fetch : GoStr → Except GoStr RawFeed) (now : Int) :
    List FeedSource → List FeedItem × List GoStr
  | [] => ([], [])
  | source :: rest =>
    match fetch source.url with
    | Except.error e =>
      let out := processSources fetch now rest
      (out.1, parseErrMsg source e :: out.2)
    | Except.ok feed =>
      let out := processSources fetch now rest
      (normalizeFeed now source feed ++ out.1, out.2)

/-- The result of `fetchFeeds`: the aggregate items, the recorded per-source
failures (printed at line 439), and the function's error return, which is
always `nil` (line 451: `return items, nil`). -/
structure FetchOutcome where
  items : List FeedItem
  failures : List GoStr
  err : Option GoStr
deriving DecidableEq

/-- `fetchFeeds` (lines 345-452): fan the sources out to workers, collect
the normalized batches, sort everything by date, and return with a `nil`
error. -/
def fetchFeeds (fetch : GoStr → Except GoStr RawFeed) (now : Int)
    (feedSources : List FeedSource) : FetchOutcome :=
  let collected := processSources fetch now feedSources
  { items := sortItems collected.1, failures := collected.2, err := none }

/-! ## Theorems about the pipeline -/

theorem insertByDate_perm (x : FeedItem) (l : List FeedItem) :
    List.Perm (insertByDate x l) (x :: l) := by
  induction l with
  | nil => exact List.Perm.refl _
  | cons y ys ih =>
    by_cases h : dateAfter x y = true
    · simp [insertByDate, h]
    · simp only [insertByDate, h, if_false]
      exact (ih.cons y).trans (List.Perm.swap x y ys)

theorem sortItems_perm (l : List FeedItem) : List.Perm (sortItems l) l := by
  induction l with
  | nil => exact List.Perm.refl _
  | cons x xs ih =>
    exact (insertByDate_perm x (sortItems xs)).trans (ih.cons x)

theorem insertByDate_pairwise (x : FeedItem) (l : List FeedItem)
    (h : l.Pairwise (fun a b => b.date ≤ a.date)) :
    (insertByDate x l).Pairwise (fun a b => b.date ≤ a.date) := by
  induction l with
  | nil => simp [insertByDate]
  | cons y ys ih =>
    rcases List.pairwise_cons.mp h with ⟨hy, hys⟩
    by_cases hxy : dateAfter x y = true
    · have hlt : y.date < x.date := by
        simpa [dateAfter] using hxy
      simp only [insertByDate, hxy, if_true]
      refine List.pairwise_cons.mpr ⟨?_, h⟩
      intro z hz
      rcases List.mem_cons.mp hz with rfl | hz2
      · exact le_of_lt hlt
      · exact le_trans (hy z hz2) (le_of_lt hlt)
    · have hle : x.date ≤ y.date := by
        have hnot : ¬ y.date < x.date := by
          simpa [dateAfter] using hxy
        omega
      simp only [insertByDate, hxy, if_false]
      refine List.pairwise_cons.mpr ⟨?_, ih hys⟩
      intro z hz
      have hz2 : z ∈ x :: ys := (insertByDate_perm x ys).mem_iff.mp hz
      rcases List.mem_cons.mp hz2 with rfl | hz3
      · exact hle
      · exact hy z hz3

theorem sortItems_pairwise (l : List FeedItem) :
    (sortItems l).Pairwise (fun a b => b.date ≤ a.date) := by
  induction l with
  | nil => simp [sortItems]
  | cons x xs ih => exact insertByDate_pairwise x (sortItems xs) ih

/-- **C2**: for every fetch outcome, every reference instant, and every
source list whose collected items have pairwise-distinct timestamps, the
aggregate collection returned by `fetchFeeds` is sorted strictly descending
by date (most recent first). -/
theorem C2_fetch_sorted_desc (fetch : GoStr → Except GoStr RawFeed)
    (now : Int) (srcs : List FeedSource)
    (hdist : ((processSources fetch now srcs).1.map FeedItem.date).Nodup) :
    ((fetchFeeds fetch now srcs).items).Pairwise
      (fun a b => b.date < a.date) := by
  have hne : (processSources fetch now srcs).1.Pairwise
      (fun a b => a.date ≠ b.date) := List.pairwise_map.mp hdist
  have hsym : ∀ {a b : FeedItem}, a.date ≠ b.date → b.date ≠ a.date :=
    fun h => Ne.symm h
  have hne2 : (sortItems (processSources fetch now srcs).1).Pairwise
      (fun a b => a.date ≠ b.date) :=
    (List.Perm.pairwise_iff hsym
      (sortItems_perm (processSources fetch now srcs).1)).mpr hne
  have hsorted := sortItems_pairwise (processSources fetch now srcs).1
  have : (sortItems (processSources fetch now srcs).1).Pairwise
      (fun a b => b.date < a.date) := by
    refine (hsorted.and hne2).imp ?_
    intro a b hab
    exact lt_of_le_of_ne hab.1 (Ne.symm hab.2)
  simpa [fetchFeeds] using this

/-- Concrete source and fetch outcome used to witness the pipeline
theorems: one source returning two dated entries and one source whose
fetch fails. -/
def wEntry (t : Option Int) : RawItem :=
  { title := gs "hello"
    link := gs "https://a.example/post"
    publishedParsed := t
    enclosures := []
    description := gs "world"
    content := [] }

def wSourceA : FeedSource := ⟨gs "A", gs "https://a.example/feed"⟩

def wSourceBad : FeedSource := ⟨gs "B", gs "https://b.example/feed"⟩

def wFetch (url : GoStr) : Except GoStr RawFeed :=
  if url = wSourceA.url then
    Except.ok ⟨gs "Feed A", [wEntry (some 50), wEntry (some 80)]⟩
  else
    Except.error (gs "malformed content")

theorem C2_fetch_sorted_desc_witness :
    ((fetchFeeds wFetch 100 [wSourceA, wSourceBad]).items).Pairwise
      (fun a b => b.date < a.date) :=
  C2_fetch_sorted_desc wFetch 100 [wSourceA, wSourceBad] (by decide)

theorem processSources_spec (fetch : GoStr → Except GoStr RawFeed)
    (now : Int) (srcs : List FeedSource) :
    (processSources fetch now srcs).1
      = (srcs.bind fun s =>
          match fetch s.url with
          | Except.ok feed => normalizeFeed now s feed
          | Except.error _ => []) ∧
    (processSources fetch now srcs).2
      = (srcs.filterMap fun s =>
          match fetch s.url with
          | Except.ok _ => none
          | Except.error e => some (parseErrMsg s e)) := by
  induction srcs with
  | nil => simp [processSources]
  | cons s rest ih =>
    cases h : fetch s.url with
    | ok feed => simp [processSources, h, ih.1, ih.2]
    | error e => simp [processSources, h, ih.1, ih.2]

/-- **C3**: for every list of sources (N of them, of which K fail to fetch
or parse), the aggregation completes without aborting (`err = none`),
returns exactly the items of the successful sources (a failed source
contributes the empty batch and never stops the remaining sources), and
records one failure message per failed source. -/
theorem C3_partial_failure_isolation (fetch : GoStr → Except GoStr RawFeed)
    (now : Int) (srcs : List FeedSource) :
    (fetchFeeds fetch now srcs).err = none ∧
    List.Perm (fetchFeeds fetch now srcs).items
      (srcs.bind fun s =>
        match fetch s.url with
        | Except.ok feed => normalizeFeed now s feed
        | Except.error _ => []) ∧
    (fetchFeeds fetch now srcs).failures
      = (srcs.filterMap fun s =>
          match fetch s.url with
          | Except.ok _ => none
          | Except.error e => some (parseErrMsg s e)) := by
  refine ⟨rfl, ?_, ?_⟩
  · have h2 : List.Perm (processSources fetch now srcs).1
        (srcs.bind fun s =>
          match fetch s.url with
          | Except.ok feed => normalizeFeed now s feed
          | Except.error _ => []) := by
      rw [(processSources_spec fetch now srcs).1]
    simpa [fetchFeeds] using
      (sortItems_perm (processSources fetch now srcs).1).trans h2
  · have h := (processSources_spec fetch now srcs).2
    simpa [fetchFeeds] using h

/-- **C4**: for every feed entry, the normalized item's `published_at`
equals the entry's parsed publish time when present, and the current
instant captured at normalization time when absent. -/
theorem C4_published_at_fallback (now : Int) (source : FeedSource)
    (feedTitle : GoStr) (item : RawItem) :
    (∀ t : Int, item.publishedParsed = some t →
      (normalizeItem now source feedTitle item).date = t) ∧
    (item.publishedParsed = none →
      (normalizeItem now source feedTitle item).date = now) := by
  constructor
  · intro t ht
    simp [normalizeItem, ht]
  · intro h
    simp [normalizeItem, h]

theorem C4_published_at_fallback_witness :
    (normalizeItem 100 wSourceA (gs "A") (wEntry (some 50))).date = 50 ∧
    (normalizeItem 100 wSourceA (gs "A") (wEntry none)).date = 100 :=
  ⟨(C4_published_at_fallback 100 wSourceA (gs "A") (wEntry (some 50))).1 50 rfl,
   (C4_published_at_fallback 100 wSourceA (gs "A") (wEntry none)).2 rfl⟩

/-- **C9**: for every item produced by the normalizer, `search_text` equals
`lowercase(title) ++ " " ++ lowercase(feed_title) ++ " " ++
lowercase(description)`, where `feed_title` and `description` are the
item's own (post-fallback) stored field values. -/
theorem C9_search_text_consistent (now : Int) (source : FeedSource)
    (feedTitle : GoStr) (item : RawItem) :
    (normalizeItem now source feedTitle item).searchText
      = goToLower (normalizeItem now source feedTitle item).title
          ++ gs " "
          ++ goToLower (normalizeItem now source feedTitle item).feedTitle
          ++ gs " "
          ++ goToLower (normalizeItem now source feedTitle item).description := by
  simp [normalizeItem]

/-! ## Theorems about the link rewriter -/

theorem dropPre_append (a b : GoStr) : dropPre (a ++ b) a = some b := by
  induction a with
  | nil => cases b <;> rfl
  | cons c cs ih => simp [dropPre, ih]

theorem takeWhile_app (p : Char → Bool) (l₁ l₂ : GoStr)
    (h : ∀ c ∈ l₁, p c = true) :
    (l₁ ++ l₂).takeWhile p = l₁ ++ l₂.takeWhile p := by
  induction l₁ with
  | nil => rfl
  | cons c cs ih =>
    have hc : p c = true := h c (List.mem_cons_self c cs)
    simp only [List.cons_append, List.takeWhile_cons, hc, if_true]
    rw [ih fun d hd => h d (List.mem_cons_of_mem c hd)]

theorem dropWhile_app (p : Char → Bool) (l₁ l₂ : GoStr)
    (h : ∀ c ∈ l₁, p c = true) :
    (l₁ ++ l₂).dropWhile p = l₂.dropWhile p := by
  induction l₁ with
  | nil => rfl
  | cons c cs ih =>
    have hc : p c = true := h c (List.mem_cons_self c cs)
    simp only [List.cons_append, List.dropWhile_cons, hc, if_true]
    exact ih fun d hd => h d (List.mem_cons_of_mem c hd)

theorem matchLinkAt_spec (sch host rest : GoStr)
    (hs : sch = gs "http" ∨ sch = gs "https")
    (hh : host ≠ []) (hh2 : '/' ∉ host) :
    matchLinkAt (sch ++ gs "://" ++ host ++ gs "/" ++ rest)
      = some (rest.takeWhile fun c => c ≠ '\n') := by
  have hmem : ∀ c ∈ host, (fun c => decide (c ≠ '/')) c = true := by
    intro c hc
    simp only [decide_eq_true_eq]
    intro he
    exact hh2 (he ▸ hc)
  have htake : (host ++ ('/' :: rest)).takeWhile (fun c => decide (c ≠ '/')) = host := by
    rw [takeWhile_app _ host ('/' :: rest) hmem]
    simp [List.takeWhile_cons]
  have hdrop : (host ++ ('/' :: rest)).dropWhile (fun c => decide (c ≠ '/')) = '/' :: rest := by
    rw [dropWhile_app _ host ('/' :: rest) hmem]
    simp [List.dropWhile_cons]
  obtain ⟨h0, htl, hhost⟩ : ∃ h0 htl, host = h0 :: htl := by
    cases host with
    | nil => exact absurd rfl hh
    | cons a as => exact ⟨a, as, rfl⟩
  rcases hs with rfl | rfl
  · have e1 : gs "http" ++ gs "://" ++ host ++ gs "/" ++ rest
        = gs "http" ++ (gs "://" ++ (host ++ ('/' :: rest))) := by
      simp [gs]
    rw [e1]
    have e2 : dropPre (gs "://" ++ (host ++ ('/' :: rest))) (gs "s") = none := rfl
    simp only [matchLinkAt, dropPre_append, Option.some_bind, e2,
      Option.getD_none]
    rw [htake, hdrop, hhost]
  · have e1 : gs "https" ++ gs "://" ++ host ++ gs "/" ++ rest
        = gs "https" ++ (gs "://" ++ (host ++ ('/' :: rest))) := by
      simp [gs]
    rw [e1]
    have e2 : dropPre (gs "https" ++ (gs "://" ++ (host ++ ('/' :: rest)))) (gs "http")
        = some ('s' :: (gs "://" ++ (host ++ ('/' :: rest)))) := rfl
    have e3 : dropPre ('s' :: (gs "://" ++ (host ++ ('/' :: rest)))) (gs "s")
        = some (gs "://" ++ (host ++ ('/' :: rest))) := rfl
    simp only [matchLinkAt, e2, Option.some_bind, e3, Option.getD_some,
      dropPre_append]
    rw [htake, hdrop, hhost]

theorem findLinkMatch_head (c : Char) (rest cap : GoStr)
    (hm : matchLinkAt (c :: rest) = some cap) :
    findLinkMatch (c :: rest) = some cap := by
  simp [findLinkMatch, hm]

/-- **C6**: for every source URL containing the mirror naming pattern
`nitter.` and every entry link of the form `scheme://host/path#fragment`
(`scheme ∈ {http, https}`, nonempty host without `/`, path without `#` or
newline), the rewritten link is the canonical origin `https://x.com/`
joined with the path, fragment stripped; for every source URL not
containing the pattern, the entry link is returned unchanged. -/
theorem C6_link_rewrite (feedURL itemLink sch host path frag : GoStr) :
    (goContains feedURL (gs "nitter.") = true →
      (sch = gs "http" ∨ sch = gs "https") →
      host ≠ [] → '/' ∉ host → '#' ∉ path → '\n' ∉ path →
      fixNitterLink feedURL
          (sch ++ gs "://" ++ host ++ gs "/" ++ path ++ gs "#" ++ frag)
        = gs "https://x.com/" ++ path) ∧
    (goContains feedURL (gs "nitter.") = false →
      fixNitterLink feedURL itemLink = itemLink) := by
  constructor
  · intro hnit hs hh hh2 hp hn
    have hsplit : sch ++ gs "://" ++ host ++ gs "/" ++ path ++ gs "#" ++ frag
        = sch ++ gs "://" ++ host ++ gs "/" ++ (path ++ ('#' :: frag)) := by
      simp [gs]
    have hm := matchLinkAt_spec sch host (path ++ ('#' :: frag)) hs hh hh2
    have hpmem : ∀ c ∈ path, (fun c => decide (c ≠ '\n')) c = true := by
      intro c hc
      simp only [decide_eq_true_eq]
      intro he
      exact hn (he ▸ hc)
    have hcap : (path ++ ('#' :: frag)).takeWhile (fun c => decide (c ≠ '\n'))
        = path ++ ('#' :: frag.takeWhile (fun c => decide (c ≠ '\n'))) := by
      rw [takeWhile_app _ path ('#' :: frag) hpmem]
      simp [List.takeWhile_cons]
    have hfinal : (path ++ ('#' :: frag.takeWhile (fun c => decide (c ≠ '\n')))).takeWhile
        (fun c => decide (c ≠ '#')) = path := by
      have hpmem2 : ∀ c ∈ path, (fun c => decide (c ≠ '#')) c = true := by
        intro c hc
        simp only [decide_eq_true_eq]
        intro he
        exact hp (he ▸ hc)
      rw [takeWhile_app _ path _ hpmem2]
      simp [List.takeWhile_cons]
    obtain ⟨c0, rest0, hcons⟩ :
        ∃ c0 rest0, sch ++ gs "://" ++ host ++ gs "/" ++ (path ++ ('#' :: frag))
          = c0 :: rest0 := by
      rcases hs with rfl | rfl
      · exact ⟨'h', gs "ttp" ++ gs "://" ++ host ++ gs "/" ++ (path ++ ('#' :: frag)),
          by simp [gs]⟩
      · exact ⟨'h', gs "ttps" ++ gs "://" ++ host ++ gs "/" ++ (path ++ ('#' :: frag)),
          by simp [gs]⟩
    rw [hsplit]
    have hfind : findLinkMatch (sch ++ gs "://" ++ host ++ gs "/" ++ (path ++ ('#' :: frag)))
        = some ((path ++ ('#' :: frag)).takeWhile (fun c => decide (c ≠ '\n'))) := by
      rw [hcons] at hm ⊢
      exact findLinkMatch_head c0 rest0 _ hm
    simp only [fixNitterLink, hnit, if_true, hfind]
    rw [hcap, hfinal]
  · intro hno
    simp [fixNitterLink, hno]

theorem C6_link_rewrite_witness :
    fixNitterLink (gs "https://nitter.example/user/rss")
        (gs "https" ++ gs "://" ++ gs "mirror.example" ++ gs "/"
          ++ gs "user/status/123" ++ gs "#" ++ gs "m")
      = gs "https://x.com/" ++ gs "user/status/123" ∧
    fixNitterLink (gs "https://site.example/feed") (gs "https://site.example/post")
      = gs "https://site.example/post" :=
  ⟨(C6_link_rewrite (gs "https://nitter.example/user/rss") []
      (gs "https") (gs "mirror.example") (gs "user/status/123") (gs "m")).1
      (by decide) (Or.inr rfl) (by decide) (by decide) (by decide) (by decide),
   (C6_link_rewrite (gs "https://site.example/feed")
      (gs "https://site.example/post") [] [] [] []).2 (by decide)⟩

/-! ## Action resolution (newseum.go lines 235-248 and 468-499) -/

/-- Launch-mode classification of `openURL`: the media branch (lines
475-498) versus the generic browser branch (lines 501-515). -/
inductive LaunchMode where
  | media
  | generic
deriving DecidableEq

/-- One position of the Go regexp `\.(mp3|wav)(?:\?.*)?$`: after the
extension the string either ends, or continues with `?` and a newline-free
tail (Go `.` does not match newline, and `$` anchors at end of text). -/
def extTail : Option GoStr → Bool
  | none => false
  | some [] => true
  | some ('?' :: q) => decide ('\n' ∉ q)
  | some (_ :: _) => false

/-- Does `\.(mp3|wav)(?:\?.*)?$` match starting at the head of `s`? -/
def audioExtAt (s : GoStr) : Bool :=
  extTail (dropPre s (gs ".mp3")) || extTail (dropPre s (gs ".wav"))

/-- `regexp.MustCompile` + `MatchString` of line 472: does
`\.(mp3|wav)(?:\?.*)?$` match anywhere in `s`? -/
def isAudioURL (s : GoStr) : Bool :=
  match s with
  | [] => false
  | c :: rest => audioExtAt (c :: rest) || isAudioURL rest

/-- Line 473: `strings.Contains(lowerURL, "youtube.com") ||
strings.Contains(lowerURL, "youtu.be")`. -/
def isYoutubeURL (s : GoStr) : Bool :=
  goContains s (gs "youtube.com") || goContains s (gs "youtu.be")

/-- The classification of `openURL` (lines 468-475): the target URL is
lowercased; media when the audio regex matches or the URL contains a
YouTube host pattern, generic otherwise. (Whether the media branch then
launches a player or falls back to the browser is the platform
collaborator's concern, line 475's `runtime.GOOS` gate.) -/
def classifyURL (url : GoStr) : LaunchMode :=
  let lowerURL := goToLower url
  if isAudioURL lowerURL || isYoutubeURL lowerURL then LaunchMode.media
  else LaunchMode.generic

/-- Target selection of `table.SetSelectedFunc` (lines 235-248): the
item's `AudioURL` when non-empty, its `Link` otherwise. -/
def resolveTarget (item : FeedItem) : GoStr :=
  if item.audioURL ≠ [] then item.audioURL else item.link

theorem isAudioURL_append_mp3 (l : GoStr) :
    isAudioURL (l ++ gs ".mp3") = true := by
  induction l with
  | nil => decide
  | cons c cs ih => simp [isAudioURL, ih]

/-- **C7**: action resolution picks `media_url` as target when non-empty
and `link` otherwise; any target whose lowercased form ends in `.mp3`
classifies as media, a `.html` page classifies as generic, and a
`youtube.com/watch` URL classifies as media. -/
theorem C7_action_resolution (item : FeedItem) (pre : GoStr) :
    (item.audioURL ≠ [] → resolveTarget item = item.audioURL) ∧
    (item.audioURL = [] → resolveTarget item = item.link) ∧
    classifyURL (pre ++ gs ".mp3") = LaunchMode.media ∧
    classifyURL (gs "https://example.com/page.html") = LaunchMode.generic ∧
    classifyURL (gs "https://www.youtube.com/watch?v=abc123") = LaunchMode.media := by
  refine ⟨?_, ?_, ?_, by decide, by decide⟩
  · intro h
    simp [resolveTarget, h]
  · intro h
    simp [resolveTarget, h]
  · have hlow : goToLower (pre ++ gs ".mp3") = goToLower pre ++ gs ".mp3" := by
      simp [goToLower, gs]
    simp only [classifyURL, hlow, isAudioURL_append_mp3, Bool.true_or, if_true]

def wItemAudio : FeedItem :=
  { title := gs "ep"
    date := 0
    feedTitle := gs "pod"
    link := gs "https://a.example/ep1"
    audioURL := gs "https://a.example/ep1.mp3"
    description := []
    searchText := [] }

def wItemPlain : FeedItem :=
  { title := gs "post"
    date := 0
    feedTitle := gs "blog"
    link := gs "https://a.example/post.html"
    audioURL := []
    description := []
    searchText := [] }

theorem C7_action_resolution_witness :
    resolveTarget wItemAudio = wItemAudio.audioURL ∧
    resolveTarget wItemPlain = wItemPlain.link :=
  ⟨(C7_action_resolution wItemAudio []).1 (by decide),
   (C7_action_resolution wItemPlain []).2.1 (by decide)⟩

/-! ## Relative date formatting (newseum.go lines 265-284, `formatDate`)

`time.Time` is Unix seconds; the local zone is modelled as a fixed offset
`off` in seconds (`date.Local()` is `date + off` of civil time). The civil
calendar conversion implements the proleptic Gregorian calendar used by
Go's `time` package (standard days-from-civil construction). -/

/-- Days since the Unix epoch of the local civil day containing `t`. -/
def localDays (t off : Int) : Int := Int.fdiv (t + off) 86400

/-- Seconds since local midnight. -/
def localSod (t off : Int) : Int := Int.emod (t + off) 86400

/-- Gregorian (year, month, day) of a day count since 1970-01-01. -/
def civilFromDays (z0 : Int) : Int × Int × Int :=
  let z := z0 + 719468
  let era := Int.fdiv z 146097
  let doe := z - era * 146097
  let yoe := Int.fdiv (doe - Int.fdiv doe 1460 + Int.fdiv doe 36524
    - Int.fdiv doe 146096) 365
  let y := yoe + era * 400
  let doy := doe - (365 * yoe + Int.fdiv yoe 4 - Int.fdiv yoe 100)
  let mp := Int.fdiv (5 * doy + 2) 153
  let d := doy - Int.fdiv (153 * mp + 2) 5 + 1
  let m := mp + (if mp < 10 then 3 else -9)
  (y + (if m ≤ 2 then 1 else 0), m, d)

/-- `t.Local().Year()` under a fixed offset. -/
def yearOf (t off : Int) : Int := (civilFromDays (localDays t off)).1

/-- `t.Local().Month()` (1-12). -/
def monthOf (t off : Int) : Int := (civilFromDays (localDays t off)).2.1

/-- `t.Local().Day()` (day of month). -/
def dayOf (t off : Int) : Int := (civilFromDays (localDays t off)).2.2

/-- `t.Local().Hour()`. -/
def hourOf (t off : Int) : Int := Int.fdiv (localSod t off) 3600

/-- `t.Local().Minute()`. -/
def minuteOf (t off : Int) : Int :=
  Int.fdiv (Int.emod (localSod t off) 3600) 60

/-- `t.Local().Weekday()` (0 = Sunday); 1970-01-01 was a Thursday. -/
def weekdayOf (t off : Int) : Int := Int.emod (localDays t off + 4) 7

/-- Decimal digits of a nonnegative Int. -/
def intToStr (i : Int) : GoStr :=
  if i < 0 then '-' :: Nat.toDigits 10 i.natAbs else Nat.toDigits 10 i.natAbs

/-- Two-digit zero-padded minute field (`04` in Go layout syntax). -/
def pad2 (n : Int) : GoStr :=
  if n < 10 then '0' :: Nat.toDigits 10 n.natAbs else Nat.toDigits 10 n.natAbs

/-- Go layout `3:04 PM`: 12-hour clock without padding, padded minutes. -/
def formatClock (t off : Int) : GoStr :=
  let h := hourOf t off
  let h12 := Int.emod h 12
  intToStr (if h12 = 0 then 12 else h12) ++ gs ":" ++ pad2 (minuteOf t off)
    ++ (if h < 12 then gs " AM" else gs " PM")

/-- Go layout `Monday`. -/
def weekdayName (w : Int) : GoStr :=
  if w = 0 then gs "Sunday"
  else if w = 1 then gs "Monday"
  else if w = 2 then gs "Tuesday"
  else if w = 3 then gs "Wednesday"
  else if w = 4 then gs "Thursday"
  else if w = 5 then gs "Friday"
  else gs "Saturday"

/-- Go layout `January`. -/
def monthName (m : Int) : GoStr :=
  if m = 1 then gs "January"
  else if m = 2 then gs "February"
  else if m = 3 then gs "March"
  else if m = 4 then gs "April"
  else if m = 5 then gs "May"
  else if m = 6 then gs "June"
  else if m = 7 then gs "July"
  else if m = 8 then gs "August"
  else if m = 9 then gs "September"
  else if m = 10 then gs "October"
  else if m = 11 then gs "November"
  else gs "December"

/-- `formatDate` (lines 265-284). `date.IsZero()` is `date = goZeroTime`;
`duration = now.Sub(date)` is zone-independent; `.Day()` compares days of
month; `now.AddDate(0, 0, -1)` is the previous local civil day. -/
def formatDate (date now off : Int) : GoStr :=
  if date = goZeroTime then gs "Unknown date"
  else
    let duration := now - date
    if duration < 86400 ∧ dayOf date off = dayOf now off then
      gs "Today at " ++ formatClock date off
    else if duration < 172800 ∧
        dayOf date off = (civilFromDays (localDays now off - 1)).2.2 then
      gs "Yesterday at " ++ formatClock date off
    else if duration < 604800 then
      weekdayName (weekdayOf date off) ++ gs " at " ++ formatClock date off
    else
      monthName (monthOf date off) ++ gs " " ++ intToStr (dayOf date off)
        ++ gs ", " ++ intToStr (yearOf date off)

/-- **C8**: the relative date formatter returns `Unknown date` for the zero
timestamp, and, with now = 2024-01-15 14:00 local (offset 0):
09:00 the same day formats as `Today at 9:00 AM`, 2024-01-14 09:00 as
`Yesterday at 9:00 AM`, 2024-01-10 09:00 as weekday plus time
(`Wednesday at 9:00 AM`), and 2023-01-01 as the full date
`January 1, 2023`. -/
theorem C8_format_date_boundaries :
    (∀ now off : Int, formatDate goZeroTime now off = gs "Unknown date") ∧
    formatDate 1705309200 1705327200 0 = gs "Today at 9:00 AM" ∧
    formatDate 1705222800 1705327200 0 = gs "Yesterday at 9:00 AM" ∧
    formatDate 1704877200 1705327200 0 = gs "Wednesday at 9:00 AM" ∧
    formatDate 1672531200 1705327200 0 = gs "January 1, 2023" := by
  refine ⟨?_, by decide, by decide, by decide, by decide⟩
  intro now off
  simp [formatDate]

/-! ## C5: undated entries

The spec's data-model sentence says an absent timestamp is treated as
"unknown", sorts last and renders as "Unknown date". The code (lines
373-377) instead substitutes `time.Now()`, so an undated item sorts as
most-recent, and `formatDate` renders "Unknown date" only for the Go zero
time, which the normalizer never produces. -/

/-- **C5 counterexample**: normalizing an undated entry at
now = 2024-01-15 14:00 UTC alongside an item dated 09:00 the same day, the
undated item sorts FIRST (most recent), not last, and renders as
`Today at 2:00 PM`, not `Unknown date`. -/
theorem C5_counterexample :
    sortItems
        [normalizeItem 1705327200 wSourceA (gs "A") (wEntry (some 1705309200)),
         normalizeItem 1705327200 wSourceA (gs "A") (wEntry none)]
      = [normalizeItem 1705327200 wSourceA (gs "A") (wEntry none),
         normalizeItem 1705327200 wSourceA (gs "A") (wEntry (some 1705309200))] ∧
    formatDate (normalizeItem 1705327200 wSourceA (gs "A") (wEntry none)).date
        1705327200 0
      = gs "Today at 2:00 PM" := by
  constructor
  · decide
  · decide

/-- **C5 amended**: an entry with an absent publish timestamp gets
`published_at = now` (the instant captured at normalization), hence sorts
as most recent among items no newer than `now`; `Unknown date` is rendered
exactly for the zero timestamp. -/
theorem C5_undated_amended (now : Int) (source : FeedSource)
    (feedTitle : GoStr) (item : RawItem) (others : List FeedItem)
    (habs : item.publishedParsed = none)
    (hothers : ∀ x ∈ others, x.date ≤ now) :
    (normalizeItem now source feedTitle item).date = now ∧
    (∀ x ∈ sortItems (normalizeItem now source feedTitle item :: others),
      x.date ≤ (normalizeItem now source feedTitle item).date) ∧
    (∀ t off : Int, formatDate goZeroTime t off = gs "Unknown date") := by
  have hdate : (normalizeItem now source feedTitle item).date = now := by
    simp [normalizeItem, habs]
  refine ⟨hdate, ?_, ?_⟩
  · intro x hx
    have hmem : x ∈ normalizeItem now source feedTitle item :: others :=
      (sortItems_perm _).mem_iff.mp hx
    rw [hdate]
    rcases List.mem_cons.mp hmem with rfl | hmem2
    · rw [hdate]
    · exact hothers x hmem2
  · intro t off
    simp [formatDate]

theorem C5_undated_amended_witness :
    (normalizeItem 1705327200 wSourceA (gs "A") (wEntry none)).date = 1705327200 ∧
    (∀ x ∈ sortItems
        [normalizeItem 1705327200 wSourceA (gs "A") (wEntry none),
         normalizeItem 1705327200 wSourceA (gs "A") (wEntry (some 1705309200))],
      x.date ≤ (normalizeItem 1705327200 wSourceA (gs "A") (wEntry none)).date) ∧
    (∀ t off : Int, formatDate goZeroTime t off = gs "Unknown date") :=
  C5_undated_amended 1705327200 wSourceA (gs "A") (wEntry none)
    [normalizeItem 1705327200 wSourceA (gs "A") (wEntry (some 1705309200))]
    rfl (by decide)

/-! ## Display cleaning (newseum.go lines 286-293, `CleanString`)

`CleanString` replaces every maximal run matching the RE2 class `\s+`
(`[\t\n\f\r ]`) with a single space, replaces `[`/`]` with `(`/`)`, and
finally applies `strings.TrimSpace` (Unicode white space per
`unicode.IsSpace`). -/

/-- The RE2 Perl class `\s`, i.e. `[\t\n\f\r ]` (no vertical tab). -/
def isRE2Space (c : Char) : Bool :=
  c = '\t' || c = '\n' || c = '\x0c' || c = '\r' || c = ' '

/-- `whitespaceRegex.ReplaceAllString(input, " ")` (line 288): each maximal
`\s+` run becomes one space. `inRun` is true while inside a run whose
replacement space was already emitted. -/
def collapseWS (inRun : Bool) : GoStr → GoStr
  | [] => []
  | c :: rest =>
    if isRE2Space c then
      if inRun then collapseWS true rest else ' ' :: collapseWS true rest
    else c :: collapseWS false rest

/-- Lines 289-290: `[` ↦ `(` and `]` ↦ `)`. -/
def replBracket (c : Char) : Char :=
  if c = '[' then '(' else if c = ']' then ')' else c

/-- Go `unicode.IsSpace`: White_Space code points. -/
def isUniSpace (c : Char) : Bool :=
  c = '\t' || c = '\n' || c = '\x0b' || c = '\x0c' || c = '\r' || c = ' '
  || c = '\x85' || c = '\xa0' || c = '\u1680'
  || ('\u2000' ≤ c && c ≤ '\u200a')
  || c = '\u2028' || c = '\u2029' || c = '\u202f' || c = '\u205f'
  || c = '\u3000'

/-- `strings.TrimSpace` (line 292): drop Unicode white space from both
ends. -/
def goTrimSpace (s : GoStr) : GoStr :=
  ((s.dropWhile isUniSpace).reverse.dropWhile isUniSpace).reverse

/-- `CleanString` (lines 286-293). -/
def CleanString (input : GoStr) : GoStr :=
  goTrimSpace ((collapseWS false input).map replBracket)

theorem replBracket_space (c : Char) :
    isRE2Space (replBracket c) = isRE2Space c := by
  by_cases h1 : c = '['
  · subst h1; decide
  · by_cases h2 : c = ']'
    · subst h2; decide
    · simp [replBracket, h1, h2]

theorem replBracket_id_of (c : Char) (h1 : c ≠ '[') (h2 : c ≠ ']') :
    replBracket c = c := by
  simp [replBracket, h1, h2]

theorem replBracket_no_bracket (c : Char) :
    replBracket c ≠ '[' ∧ replBracket c ≠ ']' := by
  by_cases h1 : c = '['
  · subst h1; decide
  · by_cases h2 : c = ']'
    · subst h2; decide
    · rw [replBracket_id_of c h1 h2]
      exact ⟨h1, h2⟩

/-- All space characters emitted by the collapse pass are literal spaces. -/
theorem collapseWS_spaces (b : Bool) (s : GoStr) :
    ∀ c ∈ collapseWS b s, isRE2Space c = true → c = ' ' := by
  induction s generalizing b with
  | nil => simp [collapseWS]
  | cons c rest ih =>
    intro d hd hsp
    by_cases hc : isRE2Space c = true
    · cases b with
      | true =>
        simp only [collapseWS, hc, if_true] at hd
        exact ih true d hd hsp
      | false =>
        simp only [collapseWS, hc, if_true, if_false] at hd
        rcases List.mem_cons.mp hd with rfl | hd2
        · rfl
        · exact ih true d hd2 hsp
    · simp only [collapseWS, hc, if_false] at hd
      rcases List.mem_cons.mp hd with rfl | hd2
      · exact absurd hsp hc
      · exact ih false d hd2 hsp

/-- `u.head?` holds no space character. -/
def headNS (u : GoStr) : Prop := ∀ d ∈ u.head?, isRE2Space d = false

/-- After a replacement space was emitted, the next emitted character is
not a space. -/
theorem collapseWS_true_headNS (s : GoStr) : headNS (collapseWS true s) := by
  induction s with
  | nil => simp [collapseWS, headNS]
  | cons c rest ih =>
    by_cases hc : isRE2Space c = true
    · simpa [collapseWS, hc] using ih
    · have hc2 : isRE2Space c = false := by simpa using hc
      simp [collapseWS, hc2, headNS]

/-- No two adjacent space characters survive the collapse pass. -/
theorem collapseWS_chain (b : Bool) (s : GoStr) :
    List.Chain' (fun a d => isRE2Space a = true → isRE2Space d = false)
      (collapseWS b s) := by
  induction s generalizing b with
  | nil => simp [collapseWS]
  | cons c rest ih =>
    by_cases hc : isRE2Space c = true
    · cases b with
      | true => simpa [collapseWS, hc] using ih true
      | false =>
        have e : collapseWS false (c :: rest) = ' ' :: collapseWS true rest := by
          simp [collapseWS, hc]
        rw [e, List.chain'_cons']
        refine ⟨?_, ih true⟩
        intro y hy _
        exact collapseWS_true_headNS rest y hy
    · have hc2 : isRE2Space c = false := by simpa using hc
      have e : collapseWS b (c :: rest) = c :: collapseWS false rest := by
        simp [collapseWS, hc2]
      rw [e, List.chain'_cons']
      refine ⟨?_, ih false⟩
      intro y hy h
      exact absurd h hc

theorem map_id_of_mem (f : Char → Char) (l : GoStr)
    (h : ∀ c ∈ l, f c = c) : l.map f = l := by
  induction l with
  | nil => rfl
  | cons c cs ih =>
    rw [List.map_cons, h c (List.mem_cons_self c cs),
      ih fun d hd => h d (List.mem_cons_of_mem c hd)]

theorem dropWhile_head_false (p : Char → Bool) (l : GoStr) (c : Char)
    (cs : GoStr) (h : l.dropWhile p = c :: cs) : p c = false := by
  induction l with
  | nil => simp [List.dropWhile_nil] at h
  | cons d ds ih =>
    cases hd : p d with
    | false =>
      rw [List.dropWhile_cons, hd] at h
      simp only [Bool.false_eq_true, if_false] at h
      injection h with h1 h2
      rw [← h1]
      exact hd
    | true =>
      rw [List.dropWhile_cons, hd] at h
      simp only [if_true] at h
      exact ih h

theorem dropWhile_twice (p : Char → Bool) (l : GoStr) :
    (l.dropWhile p).dropWhile p = l.dropWhile p := by
  cases h : l.dropWhile p with
  | nil => rfl
  | cons c cs =>
    rw [List.dropWhile_cons, dropWhile_head_false p l c cs h]
    simp

/-- Dropping trailing characters (via the reverse trick) yields a prefix. -/
theorem revDrop_prefix (p : Char → Bool) (w : GoStr) :
    ((w.reverse.dropWhile p).reverse) <+: w := by
  rcases List.dropWhile_suffix (l := w.reverse) p with ⟨t, ht⟩
  refine ⟨t.reverse, ?_⟩
  have h2 := congrArg List.reverse ht
  rw [List.reverse_append, List.reverse_reverse] at h2
  exact h2

/-- The trimmed string is an infix of the original. -/
theorem goTrimSpace_infix (u : GoStr) : goTrimSpace u <:+: u := by
  rcases revDrop_prefix isUniSpace (u.dropWhile isUniSpace) with ⟨t2, ht2⟩
  rcases List.dropWhile_suffix (l := u) isUniSpace with ⟨t1, ht1⟩
  refine ⟨t1, t2, ?_⟩
  show t1 ++ ((u.dropWhile isUniSpace).reverse.dropWhile isUniSpace).reverse ++ t2 = u
  rw [List.append_assoc, ht2, ht1]

theorem goTrimSpace_fixed (u : GoStr) :
    goTrimSpace (goTrimSpace u) = goTrimSpace u := by
  have hpre : goTrimSpace u <+: u.dropWhile isUniSpace :=
    revDrop_prefix isUniSpace (u.dropWhile isUniSpace)
  have hstep1 : (goTrimSpace u).dropWhile isUniSpace = goTrimSpace u := by
    cases hset : goTrimSpace u with
    | nil => rfl
    | cons c cs =>
      rcases hpre with ⟨r, hr⟩
      rw [hset] at hr
      have hc : isUniSpace c = false :=
        dropWhile_head_false isUniSpace u c (cs ++ r)
          (by rw [← hr, List.cons_append])
      rw [List.dropWhile_cons, hc]
      simp
  have e : (goTrimSpace u).reverse
      = (u.dropWhile isUniSpace).reverse.dropWhile isUniSpace := by
    show (((u.dropWhile isUniSpace).reverse.dropWhile isUniSpace).reverse).reverse = _
    rw [List.reverse_reverse]
  have hstep2 : (goTrimSpace u).reverse.dropWhile isUniSpace
      = (goTrimSpace u).reverse := by
    rw [e, dropWhile_twice]
  have hunf : goTrimSpace (goTrimSpace u)
      = ((goTrimSpace u).reverse.dropWhile isUniSpace).reverse := by
    show (((goTrimSpace u).dropWhile isUniSpace).reverse.dropWhile isUniSpace).reverse = _
    rw [hstep1]
  rw [hunf, hstep2, List.reverse_reverse]

/-- A string whose space characters are all literal single spaces, none
adjacent, is a fixed point of the collapse pass. -/
theorem collapseWS_fixed (u : GoStr)
    (h1 : ∀ c ∈ u, isRE2Space c = true → c = ' ')
    (h2 : List.Chain' (fun a d => isRE2Space a = true → isRE2Space d = false) u) :
    collapseWS false u = u ∧ (headNS u → collapseWS true u = u) := by
  induction u with
  | nil => exact ⟨rfl, fun _ => rfl⟩
  | cons c rest ih =>
    rcases List.chain'_cons'.mp h2 with ⟨hlink, h2r⟩
    have h1r : ∀ d ∈ rest, isRE2Space d = true → d = ' ' :=
      fun d hd => h1 d (List.mem_cons_of_mem c hd)
    rcases ih h1r h2r with ⟨ihf, iht⟩
    by_cases hc : isRE2Space c = true
    · have hcsp : c = ' ' := h1 c (List.mem_cons_self c rest) hc
      have hrestNS : headNS rest := fun y hy => hlink y hy hc
      constructor
      · have e : collapseWS false (c :: rest) = ' ' :: collapseWS true rest := by
          simp [collapseWS, hc]
        rw [e, iht hrestNS, hcsp]
      · intro hNS
        have hfalse := hNS c (by simp)
        exact absurd hc (by simp [hfalse])
    · have hc2 : isRE2Space c = false := by simpa using hc
      have e : ∀ b, collapseWS b (c :: rest) = c :: collapseWS false rest := by
        intro b
        simp [collapseWS, hc2]
      exact ⟨by rw [e false, ihf], fun _ => by rw [e true, ihf]⟩

/-- **C10**: the display-cleaning transform is idempotent: collapsing
whitespace runs, replacing square brackets with parentheses and trimming
reach a fixed point after one application, so
`CleanString (CleanString s) = CleanString s` for every string `s`. -/
theorem C10_CleanString_idempotent (s : GoStr) :
    CleanString (CleanString s) = CleanString s := by
  have hinf : goTrimSpace ((collapseWS false s).map replBracket)
      <:+: (collapseWS false s).map replBracket :=
    goTrimSpace_infix ((collapseWS false s).map replBracket)
  have hP1v : ∀ c ∈ (collapseWS false s).map replBracket,
      isRE2Space c = true → c = ' ' := by
    intro c hc hsp
    rcases List.mem_map.mp hc with ⟨c0, hc0, rfl⟩
    rw [replBracket_space] at hsp
    rw [collapseWS_spaces false s c0 hc0 hsp]
    decide
  have hchainv : List.Chain'
      (fun a d => isRE2Space a = true → isRE2Space d = false)
      ((collapseWS false s).map replBracket) := by
    rw [List.chain'_map]
    refine (collapseWS_chain false s).imp ?_
    intro a b hab
    rw [replBracket_space, replBracket_space]
    exact hab
  have hP1t : ∀ c ∈ goTrimSpace ((collapseWS false s).map replBracket),
      isRE2Space c = true → c = ' ' :=
    fun c hc => hP1v c (hinf.subset hc)
  have hchaint := hchainv.infix hinf
  have hcollapse := (collapseWS_fixed _ hP1t hchaint).1
  have hnob : ∀ c ∈ goTrimSpace ((collapseWS false s).map replBracket),
      replBracket c = c := by
    intro c hc
    rcases List.mem_map.mp (hinf.subset hc) with ⟨c0, _, rfl⟩
    exact replBracket_id_of _ (replBracket_no_bracket c0).1
      (replBracket_no_bracket c0).2
  show goTrimSpace ((collapseWS false
      (goTrimSpace ((collapseWS false s).map replBracket))).map replBracket)
    = goTrimSpace ((collapseWS false s).map replBracket)
  rw [hcollapse, map_id_of_mem _ _ hnob, goTrimSpace_fixed]
